import Mathlib

/-!
# Verification of the firefly-tokens-erc20-erc721 locator/codec core

Shallow embedding of `src/tokens/tokens.util.ts` (hex byte-string codec,
subscription-name codec, pool-locator codec, schema resolver) and of the
argument-assembly behaviour specified for the token service.

Representation conventions:
* A JavaScript string that is treated as *text payload* (the argument of
  `Buffer.from(s, 'utf8')`, the fields of a pool locator) is embedded as its
  UTF-8 byte sequence, `List Nat` with every byte `< 256`.  UTF-8
  encoding/decoding between JS strings and byte sequences is a bijection
  provided by the platform, not by this repository, so the embedding works at
  the byte level; "the string contains no NUL character" becomes
  "`0` does not occur in the byte list", and "the decoded text is exactly one
  NUL character" becomes "the byte list is `[0]`".
* A JavaScript string treated as *character data* (hex payloads, locator
  strings, subscription names) is embedded as `List Char`.
-/

namespace FireflyTokens

/-- Value of a hex digit character (`0-9`, `a-f`, `A-F`), mirroring the digits
accepted by Node's `Buffer.from(_, 'hex')` and by WHATWG percent-decoding. -/
def hexVal (c : Char) : Option Nat :=
  if 48 ≤ c.toNat ∧ c.toNat ≤ 57 then some (c.toNat - 48)
  else if 97 ≤ c.toNat ∧ c.toNat ≤ 102 then some (c.toNat - 87)
  else if 65 ≤ c.toNat ∧ c.toNat ≤ 70 then some (c.toNat - 55)
  else none

/-- Lowercase hex digit for `n < 16`, as produced by `Buffer.toString('hex')`. -/
def hexDigit (n : Nat) : Char :=
  if n < 10 then Char.ofNat (48 + n) else Char.ofNat (87 + n)

/-- Uppercase hex digit for `n < 16`, as produced by the WHATWG
`application/x-www-form-urlencoded` serializer used by `URLSearchParams`. -/
def hexDigitUpper (n : Nat) : Char :=
  if n < 10 then Char.ofNat (48 + n) else Char.ofNat (55 + n)

/-- `Buffer.toString('hex')`: each byte becomes two lowercase hex digits. -/
def hexEncode : List Nat → List Char
  | [] => []
  | b :: rest => hexDigit (b / 16) :: hexDigit (b % 16) :: hexEncode rest

/-- `Buffer.from(_, 'hex')`: consume pairs of hex digits, stopping (and
discarding the rest) at the first character pair that is not two hex digits,
including a dangling single digit. -/
def hexDecode : List Char → List Nat
  | a :: b :: rest =>
    match hexVal a, hexVal b with
    | some x, some y => (16 * x + y) :: hexDecode rest
    | _, _ => []
  | _ => []

/-- JavaScript `String.prototype.replace` with a (non-empty) plain-string
pattern: replace the first occurrence of `pat` by `rep`, leave the rest. -/
def replaceFirst (pat rep : List Char) : List Char → List Char
  | [] => []
  | c :: rest =>
    if pat.isPrefixOf (c :: rest) then rep ++ (c :: rest).drop pat.length
    else c :: replaceFirst pat rep rest

/-- `encodeHex` from `tokens.util.ts`: hex-encode the UTF-8 bytes with a `0x`
prefix; if the hex digit sequence is empty, return the sentinel `0x00`
(ethconnect does not handle empty byte arguments). -/
def encodeHex (data : List Nat) : List Char :=
  let encoded := hexEncode data
  if encoded = [] then '0' :: 'x' :: '0' :: '0' :: [] else '0' :: 'x' :: encoded

/-- `decodeHex` from `tokens.util.ts`: strip the first occurrence of `0x`,
hex-decode the remaining characters to bytes; if the decoded text is exactly
one NUL character (byte sequence `[0]`), return the empty string. -/
def decodeHex (data : List Char) : List Nat :=
  let decoded := hexDecode (replaceFirst ('0' :: 'x' :: []) [] data)
  if decoded = [0] then [] else decoded

theorem char_toNat_ofNat {n : Nat} (h : n < 55296) : (Char.ofNat n).toNat = n := by
  have hv : n.isValidChar := Or.inl h
  simp [Char.ofNat, hv, Char.toNat, Char.ofNatAux, UInt32.toNat, BitVec.toNat_ofNatLt]

theorem hexVal_hexDigit : ∀ n < 16, hexVal (hexDigit n) = some n := by decide

theorem hexVal_hexDigitUpper : ∀ n < 16, hexVal (hexDigitUpper n) = some n := by decide

theorem hexDecode_cons (b : Nat) (hb : b < 256) (rest : List Nat) :
    hexDecode (hexDigit (b / 16) :: hexDigit (b % 16) :: hexEncode rest) =
      b :: hexDecode (hexEncode rest) := by
  have h1 : b / 16 < 16 := Nat.div_lt_of_lt_mul (by omega)
  have h2 : b % 16 < 16 := Nat.mod_lt _ (by omega)
  simp [hexDecode, hexVal_hexDigit _ h1, hexVal_hexDigit _ h2, Nat.div_add_mod]

theorem hexDecode_hexEncode (bs : List Nat) (h : ∀ b ∈ bs, b < 256) :
    hexDecode (hexEncode bs) = bs := by
  induction bs with
  | nil => rfl
  | cons b rest ih =>
    have hb : b < 256 := h b (by simp)
    rw [hexEncode, hexDecode_cons b hb rest, ih (fun x hx => h x (by simp [hx]))]

theorem hexEncode_ne_nil {bs : List Nat} (h : bs ≠ []) : hexEncode bs ≠ [] := by
  cases bs with
  | nil => exact absurd rfl h
  | cons b rest => simp [hexEncode]

/-- C4 helper: stripping the `0x` prefix that `encodeHex` just added. -/
theorem replaceFirst_prefix (rest : List Char) :
    replaceFirst ('0' :: 'x' :: []) [] ('0' :: 'x' :: rest) = rest := by
  simp [replaceFirst, List.isPrefixOf]

/-- C1..C10 share this fact: a byte list containing no `0` is not `[0]`. -/
theorem ne_single_zero_of_not_mem {bs : List Nat} (h : 0 ∉ bs) : bs ≠ [0] := by
  intro heq
  exact h (heq ▸ by simp)

theorem encodeHex_cons (b : Nat) (rest : List Nat) :
    encodeHex (b :: rest) = '0' :: 'x' :: hexEncode (b :: rest) := by
  have hne : hexEncode (b :: rest) ≠ [] := by simp [hexEncode]
  simp [encodeHex, hne]

/-- UTF-8 bytes of an ASCII string literal (each `Char.toNat` is the byte). -/
def strBytes (s : String) : List Nat := s.toList.map Char.toNat

/-- C4: for every byte sequence (the UTF-8 encoding of a string) that does not
contain the NUL byte, `decodeHex (encodeHex bs) = bs`: the hex byte-string
codec round-trips all NUL-free strings, including the empty one. -/
theorem C4_hex_roundtrip (bs : List Nat) (hlt : ∀ b ∈ bs, b < 256) (hnz : 0 ∉ bs) :
    decodeHex (encodeHex bs) = bs := by
  cases bs with
  | nil => rfl
  | cons b rest =>
    rw [encodeHex_cons]
    simp only [decodeHex, replaceFirst_prefix]
    rw [hexDecode_hexEncode _ hlt, if_neg (ne_single_zero_of_not_mem hnz)]

/-- Witness for C4 at the concrete NUL-free string `"abc"`. -/
theorem C4_hex_roundtrip_witness :
    ((∀ b ∈ strBytes "abc", b < 256) ∧ 0 ∉ strBytes "abc") ∧
      decodeHex (encodeHex (strBytes "abc")) = strBytes "abc" :=
  ⟨⟨by decide, by decide⟩, C4_hex_roundtrip (strBytes "abc") (by decide) (by decide)⟩

/-- C5: `encodeHex ""` is exactly `0x00` (never `0x`), `decodeHex "0x00"` is
exactly the empty string, and `decodeHex` returns the empty string on every
input whose decoded byte content is exactly one NUL byte. -/
theorem C5_empty_sentinel :
    encodeHex [] = "0x00".toList ∧
    decodeHex "0x00".toList = [] ∧
    ∀ s : List Char,
      hexDecode (replaceFirst "0x".toList [] s) = [0] → decodeHex s = [] := by
  refine ⟨by decide, by decide, fun s h => ?_⟩
  rw [show "0x".toList = ['0', 'x'] from rfl] at h
  simp [decodeHex, h]

/-- Witness for C5's universally quantified part at the concrete input `"00"`
(no `0x` prefix, decodes to a single NUL byte). -/
theorem C5_empty_sentinel_witness :
    hexDecode (replaceFirst "0x".toList [] "00".toList) = [0] ∧
      decodeHex "00".toList = [] :=
  ⟨by decide, C5_empty_sentinel.2.2 "00".toList (by decide)⟩

/-! ## Subscription name codec (`packSubscriptionName` / `unpackSubscriptionName`) -/

/-- JavaScript `String.prototype.split` on a single-character separator
(without limit): `""` splits to `[""]`, a leading/trailing separator produces
an empty segment. -/
def splitOn (d : Char) : List Char → List (List Char)
  | [] => [[]]
  | c :: rest =>
    if c = d then [] :: splitOn d rest
    else (c :: (splitOn d rest).headD []) :: (splitOn d rest).tail

/-- Characters of a list before the first occurrence of `d`. -/
def takeUntil (d : Char) : List Char → List Char
  | [] => []
  | c :: rest => if c = d then [] else c :: takeUntil d rest

theorem splitOn_ne_nil (d : Char) (xs : List Char) : splitOn d xs ≠ [] := by
  cases xs with
  | nil => simp [splitOn]
  | cons c rest =>
    by_cases h : c = d <;> simp [splitOn, h]

theorem splitOn_no_delim (d : Char) (xs : List Char) (h : d ∉ xs) :
    splitOn d xs = [xs] := by
  induction xs with
  | nil => rfl
  | cons c rest ih =>
    have hc : ¬ c = d := fun hc => h (hc ▸ List.mem_cons_self c rest)
    have hrest : d ∉ rest := fun hr => h (List.mem_cons_of_mem c hr)
    simp [splitOn, hc, ih hrest]

theorem splitOn_append (d : Char) (xs ys : List Char) (h : d ∉ xs) :
    splitOn d (xs ++ d :: ys) = xs :: splitOn d ys := by
  induction xs with
  | nil => simp [splitOn]
  | cons c rest ih =>
    have hc : ¬ c = d := fun hc => h (hc ▸ List.mem_cons_self c rest)
    have hrest : d ∉ rest := fun hr => h (List.mem_cons_of_mem c hr)
    simp [splitOn, hc, ih hrest]

theorem splitOn_take_one (d : Char) (xs : List Char) :
    (splitOn d xs).take 1 = [takeUntil d xs] := by
  induction xs with
  | nil => rfl
  | cons c rest ih =>
    by_cases hc : c = d
    · simp [splitOn, takeUntil, hc]
    · obtain ⟨g, gs, hgs⟩ := List.exists_cons_of_ne_nil (splitOn_ne_nil d rest)
      have hg : g = takeUntil d rest := by
        have := ih
        rw [hgs] at this
        simpa using this
      simp [splitOn, takeUntil, hc, hgs, hg]

/-- Result type of `unpackSubscriptionName` (the TS object
`{prefix, poolLocator, event}`; the `prefix` field is named `pfx` here). -/
structure SubscriptionParts where
  pfx : List Char
  poolLocator : Option (List Char)
  event : Option (List Char)
deriving DecidableEq, Repr

/-- `packSubscriptionName` from `tokens.util.ts`: join prefix, pool locator
and (when present) event with `:`. -/
def packSubscriptionName (pfx poolLocator : List Char)
    (event : Option (List Char)) : List Char :=
  match event with
  | none => pfx ++ ':' :: poolLocator
  | some e => pfx ++ ':' :: poolLocator ++ ':' :: e

/-- `unpackSubscriptionName` from `tokens.util.ts`: if `data` starts with
`prefix + ":"`, split the remainder on `:` into at most two parts
(`split(':', 2)` truncates, it does not keep a tail); otherwise every optional
field is absent. -/
def unpackSubscriptionName (pfx data : List Char) : SubscriptionParts :=
  let parts : Option (List (List Char)) :=
    if (pfx ++ [':']).isPrefixOf data
    then some ((splitOn ':' (data.drop (pfx.length + 1))).take 2)
    else none
  { pfx := pfx
    poolLocator := parts.bind fun p => p[0]?
    event := parts.bind fun p => p[1]? }

/-- C7: `unpackSubscriptionName "fly" "fly:LOCATORSTR:Transfer"` yields
prefix `fly`, pool locator `LOCATORSTR`, event `Transfer`; and on every input
that does not start with `prefix + ":"` it returns both optional fields
absent — a total function, never a failure. -/
theorem C7_subscription_unpack :
    unpackSubscriptionName "fly".toList "fly:LOCATORSTR:Transfer".toList =
      ⟨"fly".toList, some "LOCATORSTR".toList, some "Transfer".toList⟩ ∧
    ∀ pfx data : List Char, ¬ (pfx ++ [':']).isPrefixOf data →
      unpackSubscriptionName pfx data = ⟨pfx, none, none⟩ := by
  refine ⟨by decide, fun pfx data h => ?_⟩
  simp [unpackSubscriptionName, h]

/-- Witness for C7's universal part at the concrete input
`("fly", "other:x")`. -/
theorem C7_subscription_unpack_witness :
    ¬ ("fly".toList ++ [':']).isPrefixOf "other:x".toList ∧
      unpackSubscriptionName "fly".toList "other:x".toList =
        ⟨"fly".toList, none, none⟩ :=
  ⟨by decide, C7_subscription_unpack.2 "fly".toList "other:x".toList (by decide)⟩

/-- C10: unpacking `prefix : locator : event` keeps only the two leading
parts of the remainder: when the locator contains no `:`, the pool locator is
recovered exactly, but the event that comes back is only the portion of the
packed event before its first `:` — everything after a second delimiter is
silently discarded, so pack/unpack does not round-trip an event name
containing `:`. -/
theorem C10_event_truncated (pfx l e : List Char) (hl : ':' ∉ l) :
    unpackSubscriptionName pfx (packSubscriptionName pfx l (some e)) =
      ⟨pfx, some l, some (takeUntil ':' e)⟩ := by
  have hsplit : packSubscriptionName pfx l (some e) =
      (pfx ++ [':']) ++ (l ++ ':' :: e) := by
    simp [packSubscriptionName]
  have hlen : pfx.length + 1 = (pfx ++ [':']).length := by simp
  have hpre : (pfx ++ [':']).isPrefixOf ((pfx ++ [':']) ++ (l ++ ':' :: e)) = true := by
    rw [List.isPrefixOf_iff_prefix]
    exact List.prefix_append _ _
  have htake : (splitOn ':' (l ++ ':' :: e)).take 2 = [l, takeUntil ':' e] := by
    rw [splitOn_append ':' l e hl]
    have h1 := splitOn_take_one ':' e
    simp [List.take_succ_cons, h1]
  simp only [unpackSubscriptionName, hsplit, hpre, if_true, hlen, List.drop_left, htake]
  simp

/-- Witness for C10 at `("fly", "pool", "a:b")`: the recovered event is `"a"`,
not `"a:b"`. -/
theorem C10_event_truncated_witness :
    ':' ∉ "pool".toList ∧
      unpackSubscriptionName "fly".toList
          (packSubscriptionName "fly".toList "pool".toList (some "a:b".toList)) =
        ⟨"fly".toList, some "pool".toList, some (takeUntil ':' "a:b".toList)⟩ :=
  ⟨by decide, C10_event_truncated "fly".toList "pool".toList "a:b".toList (by decide)⟩

/-! ## Pool locator codec (`packPoolLocator` / `unpackPoolLocator`)

`URLSearchParams` is modelled by the WHATWG `application/x-www-form-urlencoded`
serializer and parser it implements: serialization keeps bytes that are ASCII
alphanumeric or `*`/`-`/`.`/`_`, turns space into `+` and everything else into
`%XX` (uppercase hex); parsing splits on `&`, skips empty segments, splits each
segment on the first `=`, and percent-decodes names and values (`+` back to
space).  `new URLSearchParams(s)` also strips one leading `?`. -/

/-- Bytes the urlencoded serializer emits unescaped. -/
def isUrlSafe (b : Nat) : Bool :=
  decide ((48 ≤ b ∧ b ≤ 57) ∨ (65 ≤ b ∧ b ≤ 90) ∨ (97 ≤ b ∧ b ≤ 122) ∨
    b = 42 ∨ b = 45 ∨ b = 46 ∨ b = 95)

/-- Serialization of one byte. -/
def urlencodeByte (b : Nat) : List Char :=
  if b = 32 then ['+']
  else if isUrlSafe b then [Char.ofNat b]
  else ['%', hexDigitUpper (b / 16), hexDigitUpper (b % 16)]

/-- Serialization of a byte string (a name or a value). -/
def urlencode (bs : List Nat) : List Char := (bs.map urlencodeByte).flatten

/-- Percent-decoding (with `+` to space): a `%` followed by two hex digits
becomes that byte, a stray `%` stays the `%` byte (37), any other character
stands for its own byte. -/
def pctDecode (s : List Char) : List Nat :=
  match s with
  | [] => []
  | c :: rest =>
    if c = '%' then
      match _h : rest with
      | a :: b :: rest2 =>
        match hexVal a, hexVal b with
        | some x, some y => (16 * x + y) :: pctDecode rest2
        | _, _ => 37 :: pctDecode rest
      | _ => 37 :: pctDecode rest
    else if c = '+' then 32 :: pctDecode rest
    else c.toNat :: pctDecode rest
termination_by s.length
decreasing_by all_goals (simp_all; try omega)

/-- `new URLSearchParams(s)` ignores one leading `?`. -/
def stripLeadQ : List Char → List Char
  | [] => []
  | c :: rest => if c = '?' then rest else c :: rest

/-- Split a segment on its first `=`; a segment without `=` is all name,
empty value. -/
def splitPairEq : List Char → List Char × List Char
  | [] => ([], [])
  | c :: rest =>
    if c = '=' then ([], rest)
    else (c :: (splitPairEq rest).1, (splitPairEq rest).2)

/-- One parsing step shared by `parseQS`: `&`-separated segments, empty
segments skipped, each segment split on its first `=` and percent-decoded. -/
def parseSegs (s : List Char) : List (List Nat × List Nat) :=
  (splitOn '&' s).filterMap fun seg =>
    if seg = [] then none
    else some (pctDecode (splitPairEq seg).1, pctDecode (splitPairEq seg).2)

/-- The urlencoded parser: the ordered name/value pairs (as decoded byte
strings) of a query string. -/
def parseQS (s : List Char) : List (List Nat × List Nat) :=
  parseSegs (stripLeadQ s)

/-- `URLSearchParams.get`: the value of the first pair with the given name,
or absent. -/
def getParam (k : List Nat) (s : List Char) : Option (List Nat) :=
  ((parseQS s).find? fun p => p.1 == k).map fun p => p.2

/-- `EncodedPoolLocatorEnum.Address` (key visible in the pool locator strings
asserted by `test/suites/erc20.ts`). -/
def addressKeyBytes : List Nat := strBytes "address"

/-- `EncodedPoolLocatorEnum.Schema`. -/
def schemaKeyBytes : List Nat := strBytes "schema"

/-- `EncodedPoolLocatorEnum.Type`. -/
def typeKeyBytes : List Nat := strBytes "type"

/-- `EncodedPoolLocatorEnum.Standard`, the legacy key name (it is the
`standard` key of the older `EncodedPoolIdEnum` in this repository's earlier
interfaces file). -/
def standardKeyBytes : List Nat := strBytes "standard"

/-- `IValidPoolLocator`: all three fields present (field values as UTF-8
byte strings). -/
structure IValidPoolLocator where
  address : List Nat
  schema : List Nat
  type : List Nat
deriving DecidableEq, Repr

/-- `IPoolLocator`: each field may be `null`. -/
structure IPoolLocator where
  address : Option (List Nat)
  schema : Option (List Nat)
  type : Option (List Nat)
deriving DecidableEq, Repr

/-- `packPoolLocator` from `tokens.util.ts`: serialize the three pairs
`address=…&schema=…&type=…` in insertion order. -/
def packPoolLocator (loc : IValidPoolLocator) : List Char :=
  urlencode addressKeyBytes ++ '=' :: urlencode loc.address ++
  '&' :: urlencode schemaKeyBytes ++ '=' :: urlencode loc.schema ++
  '&' :: urlencode typeKeyBytes ++ '=' :: urlencode loc.type

/-- `unpackPoolLocator` from `tokens.util.ts`: read `address` and `type`
directly; read `schema` preferring the current key and falling back to the
legacy `standard` key (the TS `??` operator). -/
def unpackPoolLocator (data : List Char) : IPoolLocator :=
  { address := getParam addressKeyBytes data
    schema := (getParam schemaKeyBytes data).orElse fun _ => getParam standardKeyBytes data
    type := getParam typeKeyBytes data }

/-- `validatePoolLocator` from `tokens.util.ts`: all three fields non-null. -/
def validatePoolLocator (p : IPoolLocator) : Bool :=
  p.address.isSome && p.schema.isSome && p.type.isSome

/-- Serialization of a whole pair list, `&`-separated (the WHATWG serializer
over an arbitrary pair list; `packPoolLocator` is the three-pair instance). -/
def serializeSeg (p : List Nat × List Nat) : List Char :=
  urlencode p.1 ++ '=' :: urlencode p.2

def serializePairs : List (List Nat × List Nat) → List Char
  | [] => []
  | [p] => serializeSeg p
  | p :: rest => serializeSeg p ++ '&' :: serializePairs rest

/-! ### Round-trip lemmas for the urlencoded form -/

theorem urlencode_cons (b : Nat) (bs : List Nat) :
    urlencode (b :: bs) = urlencodeByte b ++ urlencode bs := by
  simp [urlencode]

theorem isUrlSafe_ne {b : Nat} (h : isUrlSafe b = true) :
    b ≠ 37 ∧ b ≠ 43 ∧ b ≠ 38 ∧ b ≠ 61 ∧ b ≠ 63 := by
  simp [isUrlSafe] at h
  omega

theorem pctDecode_plus (rest : List Char) :
    pctDecode ('+' :: rest) = 32 :: pctDecode rest := by
  conv_lhs => rw [pctDecode.eq_def]
  simp [show ('+' : Char) ≠ '%' from by decide]

theorem pctDecode_other (c : Char) (rest : List Char) (h1 : c ≠ '%') (h2 : c ≠ '+') :
    pctDecode (c :: rest) = c.toNat :: pctDecode rest := by
  conv_lhs => rw [pctDecode.eq_def]
  simp [h1, h2]

theorem pctDecode_percent (a b : Char) (x y : Nat) (ha : hexVal a = some x)
    (hb : hexVal b = some y) (rest : List Char) :
    pctDecode ('%' :: a :: b :: rest) = (16 * x + y) :: pctDecode rest := by
  conv_lhs => rw [pctDecode.eq_def]
  simp [ha, hb]

theorem pctDecode_urlencodeByte (b : Nat) (hb : b < 256) (rest : List Char) :
    pctDecode (urlencodeByte b ++ rest) = b :: pctDecode rest := by
  by_cases h32 : b = 32
  · subst h32
    simp [urlencodeByte, pctDecode_plus]
  · by_cases hsafe : isUrlSafe b = true
    · obtain ⟨h37, h43, _, _, _⟩ := isUrlSafe_ne hsafe
      have htn : (Char.ofNat b).toNat = b := char_toNat_ofNat (by omega)
      have hc1 : Char.ofNat b ≠ '%' := fun h => h37 (by rw [← htn, h]; rfl)
      have hc2 : Char.ofNat b ≠ '+' := fun h => h43 (by rw [← htn, h]; rfl)
      simp [urlencodeByte, h32, hsafe, pctDecode_other _ rest hc1 hc2, htn]
    · have h1 : b / 16 < 16 := Nat.div_lt_of_lt_mul (by omega)
      have h2 : b % 16 < 16 := Nat.mod_lt _ (by omega)
      simp [urlencodeByte, h32, hsafe,
        pctDecode_percent _ _ _ _ (hexVal_hexDigitUpper _ h1) (hexVal_hexDigitUpper _ h2),
        Nat.div_add_mod]

theorem pctDecode_urlencode_append (bs : List Nat) (h : ∀ b ∈ bs, b < 256)
    (rest : List Char) :
    pctDecode (urlencode bs ++ rest) = bs ++ pctDecode rest := by
  induction bs with
  | nil => simp [urlencode]
  | cons b tl ih =>
    rw [urlencode_cons, List.append_assoc,
      pctDecode_urlencodeByte b (h b (by simp)) _,
      ih (fun x hx => h x (by simp [hx]))]
    rfl

theorem pctDecode_urlencode (bs : List Nat) (h : ∀ b ∈ bs, b < 256) :
    pctDecode (urlencode bs) = bs := by
  have := pctDecode_urlencode_append bs h []
  simpa [pctDecode] using this

theorem hexDigitUpper_ne_special : ∀ n < 16,
    hexDigitUpper n ≠ '&' ∧ hexDigitUpper n ≠ '=' ∧ hexDigitUpper n ≠ '?' := by decide

theorem urlencodeByte_ne_special (b : Nat) (hb : b < 256) :
    ∀ c ∈ urlencodeByte b, c ≠ '&' ∧ c ≠ '=' ∧ c ≠ '?' := by
  by_cases h32 : b = 32
  · subst h32
    intro c hc
    simp [urlencodeByte] at hc
    subst hc
    refine ⟨by decide, by decide, by decide⟩
  · by_cases hsafe : isUrlSafe b = true
    · intro c hc
      simp [urlencodeByte, h32, hsafe] at hc
      subst hc
      obtain ⟨_, _, h38, h61, h63⟩ := isUrlSafe_ne hsafe
      have htn : (Char.ofNat b).toNat = b := char_toNat_ofNat (by omega)
      exact ⟨fun h => h38 (by rw [← htn, h]; rfl),
        fun h => h61 (by rw [← htn, h]; rfl),
        fun h => h63 (by rw [← htn, h]; rfl)⟩
    · intro c hc
      have hd1 : b / 16 < 16 := Nat.div_lt_of_lt_mul (by omega)
      have hd2 : b % 16 < 16 := Nat.mod_lt _ (by omega)
      simp [urlencodeByte, h32, hsafe] at hc
      rcases hc with hc | hc | hc <;> subst hc
      · refine ⟨by decide, by decide, by decide⟩
      · exact hexDigitUpper_ne_special _ hd1
      · exact hexDigitUpper_ne_special _ hd2

theorem urlencode_ne_special (bs : List Nat) (h : ∀ b ∈ bs, b < 256) :
    ∀ c ∈ urlencode bs, c ≠ '&' ∧ c ≠ '=' ∧ c ≠ '?' := by
  intro c hc
  simp only [urlencode, List.mem_flatten, List.mem_map] at hc
  obtain ⟨l, ⟨b, hb, rfl⟩, hcl⟩ := hc
  exact urlencodeByte_ne_special b (h b hb) c hcl

theorem splitPairEq_append (k v : List Char) (h : '=' ∉ k) :
    splitPairEq (k ++ '=' :: v) = (k, v) := by
  induction k with
  | nil => simp [splitPairEq]
  | cons c rest ih =>
    have hc : ¬ c = '=' := fun hc => h (hc ▸ List.mem_cons_self _ _)
    have hrest : '=' ∉ rest := fun hr => h (List.mem_cons_of_mem _ hr)
    simp [splitPairEq, hc, ih hrest]

theorem stripLeadQ_seg (k : List Nat) (hk : ∀ b ∈ k, b < 256) (rest : List Char) :
    stripLeadQ (urlencode k ++ '=' :: rest) = urlencode k ++ '=' :: rest := by
  cases hu : urlencode k with
  | nil => simp [stripLeadQ]
  | cons c tl =>
    have hcq : c ≠ '?' := (urlencode_ne_special k hk c (by rw [hu]; simp)).2.2
    simp [stripLeadQ, hcq]

theorem stripLeadQ_seg_append (p : List Nat × List Nat)
    (h1 : ∀ b ∈ p.1, b < 256) (x : List Char) :
    stripLeadQ (serializeSeg p ++ x) = serializeSeg p ++ x := by
  have hassoc : serializeSeg p ++ x = urlencode p.1 ++ '=' :: (urlencode p.2 ++ x) := by
    simp [serializeSeg]
  rw [hassoc, stripLeadQ_seg p.1 h1]

theorem serializeSeg_ne_nil (p : List Nat × List Nat) : serializeSeg p ≠ [] := by
  simp [serializeSeg]

theorem amp_not_mem_seg (p : List Nat × List Nat)
    (h1 : ∀ b ∈ p.1, b < 256) (h2 : ∀ b ∈ p.2, b < 256) :
    '&' ∉ serializeSeg p := by
  intro hmem
  simp only [serializeSeg, List.mem_append, List.mem_cons] at hmem
  rcases hmem with h | h | h
  · exact (urlencode_ne_special _ h1 _ h).1 rfl
  · exact absurd h (by decide)
  · exact (urlencode_ne_special _ h2 _ h).1 rfl

theorem seg_decode (p : List Nat × List Nat)
    (h1 : ∀ b ∈ p.1, b < 256) (h2 : ∀ b ∈ p.2, b < 256) :
    (if serializeSeg p = [] then none else
      some (pctDecode (splitPairEq (serializeSeg p)).1,
            pctDecode (splitPairEq (serializeSeg p)).2)) = some p := by
  rw [if_neg (serializeSeg_ne_nil p)]
  have heq : '=' ∉ urlencode p.1 := fun hm => (urlencode_ne_special _ h1 _ hm).2.1 rfl
  rw [show serializeSeg p = urlencode p.1 ++ '=' :: urlencode p.2 from rfl,
    splitPairEq_append _ _ heq]
  simp [pctDecode_urlencode _ h1, pctDecode_urlencode _ h2]

theorem parseSegs_serializePairs (ps : List (List Nat × List Nat)) (hne : ps ≠ [])
    (hb : ∀ p ∈ ps, (∀ b ∈ p.1, b < 256) ∧ (∀ b ∈ p.2, b < 256)) :
    parseSegs (serializePairs ps) = ps := by
  induction ps with
  | nil => exact absurd rfl hne
  | cons p rest ih =>
    obtain ⟨h1, h2⟩ := hb p (by simp)
    cases rest with
    | nil =>
      rw [show serializePairs [p] = serializeSeg p from rfl]
      unfold parseSegs
      rw [splitOn_no_delim _ _ (amp_not_mem_seg p h1 h2)]
      simp only [List.filterMap_cons]
      rw [seg_decode p h1 h2]
      simp
    | cons q rest2 =>
      rw [show serializePairs (p :: q :: rest2) =
        serializeSeg p ++ '&' :: serializePairs (q :: rest2) from rfl]
      unfold parseSegs
      rw [splitOn_append _ _ _ (amp_not_mem_seg p h1 h2)]
      simp only [List.filterMap_cons]
      rw [seg_decode p h1 h2]
      have ihq := ih (by simp) (fun x hx => hb x (by simp [hx]))
      unfold parseSegs at ihq
      rw [ihq]

theorem stripLeadQ_serializePairs (ps : List (List Nat × List Nat)) (hne : ps ≠ [])
    (hb : ∀ p ∈ ps, (∀ b ∈ p.1, b < 256) ∧ (∀ b ∈ p.2, b < 256)) :
    stripLeadQ (serializePairs ps) = serializePairs ps := by
  cases ps with
  | nil => exact absurd rfl hne
  | cons p rest =>
    obtain ⟨h1, _⟩ := hb p (by simp)
    cases rest with
    | nil =>
      rw [show serializePairs [p] = serializeSeg p from rfl]
      have := stripLeadQ_seg_append p h1 []
      simpa using this
    | cons q rest2 =>
      rw [show serializePairs (p :: q :: rest2) =
        serializeSeg p ++ '&' :: serializePairs (q :: rest2) from rfl]
      exact stripLeadQ_seg_append p h1 _

theorem parseQS_serializePairs (ps : List (List Nat × List Nat)) (hne : ps ≠ [])
    (hb : ∀ p ∈ ps, (∀ b ∈ p.1, b < 256) ∧ (∀ b ∈ p.2, b < 256)) :
    parseQS (serializePairs ps) = ps := by
  unfold parseQS
  rw [stripLeadQ_serializePairs ps hne hb, parseSegs_serializePairs ps hne hb]

theorem packPoolLocator_eq_serializePairs (loc : IValidPoolLocator) :
    packPoolLocator loc = serializePairs
      [(addressKeyBytes, loc.address), (schemaKeyBytes, loc.schema),
       (typeKeyBytes, loc.type)] := by
  simp [packPoolLocator, serializePairs, serializeSeg, List.append_assoc]

theorem parseQS_pack (loc : IValidPoolLocator)
    (ha : ∀ b ∈ loc.address, b < 256) (hs : ∀ b ∈ loc.schema, b < 256)
    (ht : ∀ b ∈ loc.type, b < 256) :
    parseQS (packPoolLocator loc) =
      [(addressKeyBytes, loc.address), (schemaKeyBytes, loc.schema),
       (typeKeyBytes, loc.type)] := by
  rw [packPoolLocator_eq_serializePairs]
  refine parseQS_serializePairs _ (by simp) ?_
  intro p hp
  simp only [List.mem_cons, List.not_mem_nil, or_false] at hp
  rcases hp with rfl | rfl | rfl
  · exact ⟨show ∀ b ∈ addressKeyBytes, b < 256 from by decide, ha⟩
  · exact ⟨show ∀ b ∈ schemaKeyBytes, b < 256 from by decide, hs⟩
  · exact ⟨show ∀ b ∈ typeKeyBytes, b < 256 from by decide, ht⟩

theorem find?_key_cons_eq (k v kk : List Nat) (rest : List (List Nat × List Nat))
    (h : (k == kk) = true) :
    (((k, v) :: rest).find? fun p => p.1 == kk) = some (k, v) := by
  simp [List.find?, h]

theorem find?_key_cons_ne (k v kk : List Nat) (rest : List (List Nat × List Nat))
    (h : (k == kk) = false) :
    (((k, v) :: rest).find? fun p => p.1 == kk) =
      rest.find? fun p => p.1 == kk := by
  simp [List.find?, h]

/-- C1: for every valid structured pool locator (all three fields present,
field values arbitrary byte strings), `unpackPoolLocator (packPoolLocator L)`
recovers address, schema and type exactly. -/
theorem C1_pool_locator_roundtrip (loc : IValidPoolLocator)
    (ha : ∀ b ∈ loc.address, b < 256) (hs : ∀ b ∈ loc.schema, b < 256)
    (ht : ∀ b ∈ loc.type, b < 256) :
    unpackPoolLocator (packPoolLocator loc) =
      ⟨some loc.address, some loc.schema, some loc.type⟩ := by
  have hp := parseQS_pack loc ha hs ht
  have e1 : (addressKeyBytes == addressKeyBytes) = true := by decide
  have e2 : (addressKeyBytes == schemaKeyBytes) = false := by decide
  have e3 : (schemaKeyBytes == schemaKeyBytes) = true := by decide
  have e4 : (addressKeyBytes == typeKeyBytes) = false := by decide
  have e5 : (schemaKeyBytes == typeKeyBytes) = false := by decide
  have e6 : (typeKeyBytes == typeKeyBytes) = true := by decide
  have fa : getParam addressKeyBytes (packPoolLocator loc) = some loc.address := by
    unfold getParam
    rw [hp, find?_key_cons_eq _ _ _ _ e1]
    rfl
  have fs : getParam schemaKeyBytes (packPoolLocator loc) = some loc.schema := by
    unfold getParam
    rw [hp, find?_key_cons_ne _ _ _ _ e2, find?_key_cons_eq _ _ _ _ e3]
    rfl
  have ft : getParam typeKeyBytes (packPoolLocator loc) = some loc.type := by
    unfold getParam
    rw [hp, find?_key_cons_ne _ _ _ _ e4, find?_key_cons_ne _ _ _ _ e5,
      find?_key_cons_eq _ _ _ _ e6]
    rfl
  unfold unpackPoolLocator
  rw [fa, fs, ft]
  rfl

/-- Witness for C1 at the concrete locator
`{address: "0x123456", schema: "ERC20WithData", type: "fungible"}`. -/
theorem C1_pool_locator_roundtrip_witness :
    ((∀ b ∈ (IValidPoolLocator.mk (strBytes "0x123456") (strBytes "ERC20WithData")
        (strBytes "fungible")).address, b < 256) ∧
     (∀ b ∈ (IValidPoolLocator.mk (strBytes "0x123456") (strBytes "ERC20WithData")
        (strBytes "fungible")).schema, b < 256) ∧
     (∀ b ∈ (IValidPoolLocator.mk (strBytes "0x123456") (strBytes "ERC20WithData")
        (strBytes "fungible")).type, b < 256)) ∧
    unpackPoolLocator (packPoolLocator (IValidPoolLocator.mk (strBytes "0x123456")
        (strBytes "ERC20WithData") (strBytes "fungible"))) =
      ⟨some (strBytes "0x123456"), some (strBytes "ERC20WithData"),
       some (strBytes "fungible")⟩ :=
  ⟨⟨by decide, by decide, by decide⟩,
    C1_pool_locator_roundtrip _ (by decide) (by decide) (by decide)⟩

/-- C6: decoding an encoded locator that carries the legacy `standard` key and
no `schema` key puts the legacy value in the schema field, and the result is
valid when address and type are present as well; when both the `schema` and
the `standard` key are present, the value under `schema` is preferred. -/
theorem C6_legacy_standard_key (a v s t : List Nat)
    (ha : ∀ b ∈ a, b < 256) (hv : ∀ b ∈ v, b < 256)
    (hs : ∀ b ∈ s, b < 256) (ht : ∀ b ∈ t, b < 256) :
    (unpackPoolLocator (serializePairs
        [(addressKeyBytes, a), (standardKeyBytes, v), (typeKeyBytes, t)]) =
          ⟨some a, some v, some t⟩ ∧
      validatePoolLocator (unpackPoolLocator (serializePairs
        [(addressKeyBytes, a), (standardKeyBytes, v), (typeKeyBytes, t)])) = true) ∧
    (unpackPoolLocator (serializePairs
        [(addressKeyBytes, a), (schemaKeyBytes, s), (standardKeyBytes, v),
         (typeKeyBytes, t)])).schema = some s := by
  have hb3 : ∀ p ∈ [(addressKeyBytes, a), (standardKeyBytes, v), (typeKeyBytes, t)],
      (∀ b ∈ p.1, b < 256) ∧ (∀ b ∈ p.2, b < 256) := by
    intro p hp
    simp only [List.mem_cons, List.not_mem_nil, or_false] at hp
    rcases hp with rfl | rfl | rfl
    · exact ⟨show ∀ b ∈ addressKeyBytes, b < 256 from by decide, ha⟩
    · exact ⟨show ∀ b ∈ standardKeyBytes, b < 256 from by decide, hv⟩
    · exact ⟨show ∀ b ∈ typeKeyBytes, b < 256 from by decide, ht⟩
  have hb4 : ∀ p ∈ [(addressKeyBytes, a), (schemaKeyBytes, s), (standardKeyBytes, v),
      (typeKeyBytes, t)], (∀ b ∈ p.1, b < 256) ∧ (∀ b ∈ p.2, b < 256) := by
    intro p hp
    simp only [List.mem_cons, List.not_mem_nil, or_false] at hp
    rcases hp with rfl | rfl | rfl | rfl
    · exact ⟨show ∀ b ∈ addressKeyBytes, b < 256 from by decide, ha⟩
    · exact ⟨show ∀ b ∈ schemaKeyBytes, b < 256 from by decide, hs⟩
    · exact ⟨show ∀ b ∈ standardKeyBytes, b < 256 from by decide, hv⟩
    · exact ⟨show ∀ b ∈ typeKeyBytes, b < 256 from by decide, ht⟩
  have hp1 := parseQS_serializePairs
    [(addressKeyBytes, a), (standardKeyBytes, v), (typeKeyBytes, t)] (by simp) hb3
  have hp2 := parseQS_serializePairs
    [(addressKeyBytes, a), (schemaKeyBytes, s), (standardKeyBytes, v),
     (typeKeyBytes, t)] (by simp) hb4
  have e1 : (addressKeyBytes == addressKeyBytes) = true := by decide
  have e2 : (addressKeyBytes == schemaKeyBytes) = false := by decide
  have e3 : (standardKeyBytes == schemaKeyBytes) = false := by decide
  have e4 : (typeKeyBytes == schemaKeyBytes) = false := by decide
  have e5 : (addressKeyBytes == standardKeyBytes) = false := by decide
  have e6 : (standardKeyBytes == standardKeyBytes) = true := by decide
  have e7 : (addressKeyBytes == typeKeyBytes) = false := by decide
  have e8 : (standardKeyBytes == typeKeyBytes) = false := by decide
  have e9 : (typeKeyBytes == typeKeyBytes) = true := by decide
  have e10 : (schemaKeyBytes == schemaKeyBytes) = true := by decide
  have ga : getParam addressKeyBytes (serializePairs
      [(addressKeyBytes, a), (standardKeyBytes, v), (typeKeyBytes, t)]) = some a := by
    unfold getParam
    rw [hp1, find?_key_cons_eq _ _ _ _ e1]
    rfl
  have gsch : getParam schemaKeyBytes (serializePairs
      [(addressKeyBytes, a), (standardKeyBytes, v), (typeKeyBytes, t)]) = none := by
    unfold getParam
    rw [hp1, find?_key_cons_ne _ _ _ _ e2, find?_key_cons_ne _ _ _ _ e3,
      find?_key_cons_ne _ _ _ _ e4, List.find?_nil]
    rfl
  have gstd : getParam standardKeyBytes (serializePairs
      [(addressKeyBytes, a), (standardKeyBytes, v), (typeKeyBytes, t)]) = some v := by
    unfold getParam
    rw [hp1, find?_key_cons_ne _ _ _ _ e5, find?_key_cons_eq _ _ _ _ e6]
    rfl
  have gt : getParam typeKeyBytes (serializePairs
      [(addressKeyBytes, a), (standardKeyBytes, v), (typeKeyBytes, t)]) = some t := by
    unfold getParam
    rw [hp1, find?_key_cons_ne _ _ _ _ e7, find?_key_cons_ne _ _ _ _ e8,
      find?_key_cons_eq _ _ _ _ e9]
    rfl
  have hun : unpackPoolLocator (serializePairs
      [(addressKeyBytes, a), (standardKeyBytes, v), (typeKeyBytes, t)]) =
        ⟨some a, some v, some t⟩ := by
    unfold unpackPoolLocator
    rw [ga, gsch, gstd, gt]
    rfl
  have gsch4 : getParam schemaKeyBytes (serializePairs
      [(addressKeyBytes, a), (schemaKeyBytes, s), (standardKeyBytes, v),
       (typeKeyBytes, t)]) = some s := by
    unfold getParam
    rw [hp2, find?_key_cons_ne _ _ _ _ e2, find?_key_cons_eq _ _ _ _ e10]
    rfl
  refine ⟨⟨hun, by rw [hun]; rfl⟩, ?_⟩
  show (Option.orElse (getParam schemaKeyBytes _) fun _ => getParam standardKeyBytes _) = some s
  rw [gsch4]
  rfl

/-- Witness for C6 at concrete values: address `0xabc`, legacy value
`ERC20WithData`, current-key value `ERC721NoData`, type `fungible`. -/
theorem C6_legacy_standard_key_witness :
    ((∀ b ∈ strBytes "0xabc", b < 256) ∧ (∀ b ∈ strBytes "ERC20WithData", b < 256) ∧
     (∀ b ∈ strBytes "ERC721NoData", b < 256) ∧ (∀ b ∈ strBytes "fungible", b < 256)) ∧
    ((unpackPoolLocator (serializePairs
        [(addressKeyBytes, strBytes "0xabc"), (standardKeyBytes, strBytes "ERC20WithData"),
         (typeKeyBytes, strBytes "fungible")]) =
          ⟨some (strBytes "0xabc"), some (strBytes "ERC20WithData"),
           some (strBytes "fungible")⟩ ∧
      validatePoolLocator (unpackPoolLocator (serializePairs
        [(addressKeyBytes, strBytes "0xabc"), (standardKeyBytes, strBytes "ERC20WithData"),
         (typeKeyBytes, strBytes "fungible")])) = true) ∧
     (unpackPoolLocator (serializePairs
        [(addressKeyBytes, strBytes "0xabc"), (schemaKeyBytes, strBytes "ERC721NoData"),
         (standardKeyBytes, strBytes "ERC20WithData"),
         (typeKeyBytes, strBytes "fungible")])).schema = some (strBytes "ERC721NoData")) :=
  ⟨⟨by decide, by decide, by decide, by decide⟩,
    C6_legacy_standard_key _ _ _ _ (by decide) (by decide) (by decide) (by decide)⟩

/-- C8: `validatePoolLocator` is false exactly when at least one of address,
schema, type is null, and true exactly when all three are non-null. -/
theorem C8_validate_pool_locator (p : IPoolLocator) :
    (validatePoolLocator p = false ↔
      (p.address = none ∨ p.schema = none ∨ p.type = none)) ∧
    (validatePoolLocator p = true ↔
      (p.address ≠ none ∧ p.schema ≠ none ∧ p.type ≠ none)) := by
  obtain ⟨a, s, t⟩ := p
  cases a <;> cases s <;> cases t <;> simp [validatePoolLocator]

/-! ## Schema resolver (`getTokenSchema`) -/

/-- `getTokenSchema` from `tokens.util.ts`, at the runtime semantics of the TS
string enum: `TokenType.FUNGIBLE` is the string `"fungible"`, and the function
branches only on equality with it; `withData` defaults to `true`. -/
def getTokenSchema (type : String) (withData : Bool := true) : String :=
  if type = "fungible" then
    if withData then "ERC20WithData" else "ERC20NoData"
  else
    if withData then "ERC721WithData" else "ERC721NoData"

/-- C3: the four canonical mappings of the schema resolver, and the
default `withData = true` when the argument is omitted. -/
theorem C3_schema_resolver :
    getTokenSchema "fungible" true = "ERC20WithData" ∧
    getTokenSchema "fungible" false = "ERC20NoData" ∧
    getTokenSchema "nonfungible" true = "ERC721WithData" ∧
    getTokenSchema "nonfungible" false = "ERC721NoData" ∧
    getTokenSchema "fungible" = "ERC20WithData" ∧
    getTokenSchema "nonfungible" = "ERC721WithData" := by
  refine ⟨rfl, rfl, ?_, ?_, rfl, ?_⟩ <;> decide

/-- Counterexample to C9: the resolver applied to the unrecognized type
string `"token"` silently yields one of the four canonical schema names
(namely `"ERC721WithData"`), instead of rejecting it. -/
theorem C9_counterexample :
    getTokenSchema "token" true ∈
      ["ERC20WithData", "ERC20NoData", "ERC721WithData", "ERC721NoData"] ∧
    getTokenSchema "token" true = "ERC721WithData" := by
  refine ⟨?_, by decide⟩
  decide

/-- C9 (amended): `getTokenSchema` branches only on equality with
`"fungible"`: every other type string — `"nonfungible"` or unrecognized
garbage alike — is mapped to the ERC721 schema variants rather than rejected;
rejecting unrecognized fungibility types is the job of the validation
boundary in front of the resolver, not of the resolver itself. -/
theorem C9_amended_no_rejection (type : String) (withData : Bool)
    (h : type ≠ "fungible") :
    getTokenSchema type withData =
      (if withData then "ERC721WithData" else "ERC721NoData") := by
  simp [getTokenSchema, h]

/-- Witness for the amended C9 at the unrecognized type `"token"`. -/
theorem C9_amended_no_rejection_witness :
    ("token" ≠ "fungible") ∧
      getTokenSchema "token" true =
        (if true then "ERC721WithData" else "ERC721NoData") :=
  ⟨by decide, C9_amended_no_rejection "token" true (by decide)⟩

/-! ## Argument assembly for mint -/

/-- Modelled from the spec: `buildArguments` (the mint branch of the token
service's argument assembly) is not among the provided source files — only its
test expectations are.  Per the specification, the mint argument list is the
recipient and the amount in order; for the with-data schemas the hex encoding
of the caller-supplied data (the empty-string encoding when none was supplied)
is appended as the final positional argument, and for the without-data schemas
the data argument is omitted entirely — the schema alone decides. -/
def buildMintArguments (schema : String) (toAddr amount : String)
    (data : Option (List Nat)) : List String :=
  if schema = "ERC20WithData" ∨ schema = "ERC721WithData" then
    [toAddr, amount, String.mk (encodeHex (data.getD []))]
  else [toAddr, amount]

/-- C2: minting `{to: "0x123", amount: "20"}` with no data supplied produces
`["0x123", "20", "0x00"]` under `ERC20WithData` (encoded empty-data sentinel
appended last) and `["0x123", "20"]` under `ERC20NoData`; under the
without-data schema no data argument is ever present, whatever data is
supplied. -/
theorem C2_mint_arguments :
    buildMintArguments "ERC20WithData" "0x123" "20" none = ["0x123", "20", "0x00"] ∧
    buildMintArguments "ERC20NoData" "0x123" "20" none = ["0x123", "20"] ∧
    ∀ d : Option (List Nat),
      buildMintArguments "ERC20NoData" "0x123" "20" d = ["0x123", "20"] := by
  refine ⟨by decide, by decide, fun d => ?_⟩
  simp [buildMintArguments]

end FireflyTokens
